import Mathlib

set_option maxHeartbeats 2000000
set_option maxRecDepth 4000

/-!
Verification of the MLK archive search core (`app.py`): query translation,
snippet extraction and result assembly.  Python strings are modelled as
`List Char`; each definition below embeds the corresponding Python function.
-/

namespace MlkSearch

/-- The character list of a string literal (model of a Python `str` value). -/
def chars (s : String) : List Char := s.data

/-- Model of Python strings. -/
abbrev Str := List Char

/-- A word character in the sense of the regex `\b` boundary (`\w`): ASCII
alphanumeric or underscore. -/
def isWordChar (c : Char) : Bool := c.isAlphanum || c == '_'

/-- Python `str.lower()` (ASCII case folding). -/
def pyLower (l : Str) : Str := l.map Char.toLower

/-- Python `str.upper()` (ASCII case folding). -/
def pyUpper (l : Str) : Str := l.map Char.toUpper

/-- Python `str.strip()`: remove leading and trailing whitespace. -/
def pyStrip (l : Str) : Str :=
  ((l.dropWhile Char.isWhitespace).reverse.dropWhile Char.isWhitespace).reverse

/-- Python `str.strip(c)` for a single character `c`. -/
def pyStripChar (c : Char) (l : Str) : Str :=
  ((l.dropWhile (· == c)).reverse.dropWhile (· == c)).reverse

/-- Python `text.split('\n')`: `[] ↦ [[]]`, and a trailing newline yields a
trailing empty line, exactly as in Python. -/
def splitNL : Str → List Str
  | [] => [[]]
  | c :: rest =>
    let r := splitNL rest
    if c = '\n' then [] :: r
    else
      match r with
      | [] => [[c]]
      | h :: t => (c :: h) :: t

/-- Python `sep.join(parts)`. -/
def joinSep (sep : Str) : List Str → Str
  | [] => []
  | [x] => x
  | x :: y :: rest => x ++ sep ++ joinSep sep (y :: rest)

/-- Python `'\n'.join(parts)`. -/
def joinNL (parts : List Str) : Str := joinSep (chars "\n") parts

/-- The ellipsis marker `"..."` used by the snippet extractor. -/
def dots : Str := chars "..."

/-- Auxiliary scan for `str.find`: first index (counting from `i`) at which
`pat` occurs in `hay`. -/
def strFindAux (pat : Str) : Str → Nat → Option Nat
  | [], i => if pat.isPrefixOf ([] : Str) then some i else none
  | c :: t, i => if pat.isPrefixOf (c :: t) then some i else strFindAux pat t (i + 1)

/-- First occurrence of `pat` in `hay`, if any. -/
def strFindN (hay pat : Str) : Option Nat := strFindAux pat hay 0

/-- Python `hay.find(pat)`: the first index, or `-1` when absent. -/
def strFind (hay pat : Str) : Int :=
  match strFindN hay pat with
  | some n => (n : Int)
  | none => -1

/-- Python `pat in hay` (substring test). -/
def containsSub (hay pat : Str) : Bool := (strFindN hay pat).isSome

/-- Split at the first double quote: the characters before it and the
characters after it, or `none` when no quote occurs. -/
def splitOnQuote (l : Str) : Option (Str × Str) :=
  match l.dropWhile (fun c => !(c == '"')) with
  | [] => none
  | _ :: rest => some (l.takeWhile (fun c => !(c == '"')), rest)

/-- Non-whitespace test (`\S` in the tokenizing regexes). -/
def notWs (c : Char) : Bool := !c.isWhitespace

/-- Fuelled scanner for `re.findall(r'"[^"]*"|\S+', s)` (`minInner = 0`) and
`re.findall(r'"[^"]+"|\S+', s)` (`minInner = 1`): at a double quote with a
matching closing quote (and an inner part of length at least `minInner`) a
quoted-phrase token is produced, otherwise a maximal non-whitespace run. -/
def pyTokensF (minInner : Nat) : Nat → Str → List Str
  | _, [] => []
  | 0, _ :: _ => []
  | fuel + 1, c :: rest =>
    if c.isWhitespace then pyTokensF minInner fuel rest
    else if c = '"' then
      match splitOnQuote rest with
      | some (inner, rest') =>
        if minInner ≤ inner.length then
          ('"' :: (inner ++ ['"'])) :: pyTokensF minInner fuel rest'
        else
          (c :: rest.takeWhile notWs) :: pyTokensF minInner fuel (rest.dropWhile notWs)
      | none =>
        (c :: rest.takeWhile notWs) :: pyTokensF minInner fuel (rest.dropWhile notWs)
    else
      (c :: rest.takeWhile notWs) :: pyTokensF minInner fuel (rest.dropWhile notWs)

/-- Tokenization of a query, quote aware (the two `re.findall` patterns of
`app.py`, selected by `minInner`). -/
def pyTokens (minInner : Nat) (l : Str) : List Str := pyTokensF minInner l.length l

/-- One pass of `re.sub(r'\bWORD\b', ' WORD ', s, flags=IGNORECASE)`:
`run` accumulates the current maximal word-character run; on a boundary the
run is emitted, replaced by `repl` when it case-insensitively equals `w`. -/
def subFlush (w repl run : Str) : Str := if run.map Char.toUpper = w then repl else run

/-- Scanner for the word-boundary substitution; `run` is the word run read so
far (always a list of word characters). -/
def subGo (w repl : Str) (run : Str) : Str → Str
  | [] => subFlush w repl run
  | c :: rest =>
    if isWordChar c then subGo w repl (run ++ [c]) rest
    else subFlush w repl run ++ c :: subGo w repl [] rest

/-- `re.sub(r'\bW\b', ' W ', s, flags=re.IGNORECASE)` for an operator word
`w` (written uppercase), as used on the raw query in `parse_boolean_query`. -/
def subOpWord (w : Str) (l : Str) : Str := subGo w (' ' :: w ++ [' ']) [] l

/-- The three sequential operator substitutions of `parse_boolean_query`
(lines 107-109 of `app.py`). -/
def normalizeOps (l : Str) : Str :=
  subOpWord (chars "NOT") (subOpWord (chars "OR") (subOpWord (chars "AND") l))

/-- Fuelled Python `str.replace(pat, repl)` (all occurrences, left to right;
only used with non-empty `pat`). -/
def pyReplaceF (pat repl : Str) : Nat → Str → Str
  | _, [] => []
  | 0, l => l
  | fuel + 1, c :: rest =>
    if pat ≠ [] ∧ pat.isPrefixOf (c :: rest) then
      repl ++ pyReplaceF pat repl fuel ((c :: rest).drop pat.length)
    else
      c :: pyReplaceF pat repl fuel rest

/-- Python `l.replace(pat, repl)`. -/
def pyReplace (pat repl l : Str) : Str := pyReplaceF pat repl l.length l

/-!  Embedding of the query translator (`app.py` lines 102-139). -/

/-- The FTS5 reserved characters of the regex `[.*:><\[\]{}()\-+^~]` in
`escape_fts_special_chars`. -/
def reservedChars : Str :=
  ['.', '*', ':', '>', '<', '[', ']', '{', '}', '(', ')', '-', '+', '^', '~']

/-- `escape_fts_special_chars` (`app.py` lines 131-139): a token containing a
reserved character is wrapped in double quotes after doubling any internal
double quotes; otherwise it is returned unchanged. -/
def escape_fts_special_chars (text : Str) : Str :=
  if text.any (fun c => reservedChars.contains c) then
    '"' :: (pyReplace ['"'] ['"', '"'] text ++ ['"'])
  else text

/-- The operator keywords, uppercase, as compared against `token.upper()`. -/
def opWordsU : List Str := [chars "AND", chars "OR", chars "NOT"]

/-- Python `token.startswith('"') and token.endswith('"')` (line 119; note a
single `"` satisfies both). -/
def pyQuotedTok (t : Str) : Bool :=
  ['"'].isPrefixOf t && ['"'].isPrefixOf t.reverse

/-- The token-processing loop body of `parse_boolean_query`
(lines 115-127). -/
def process_token (token : Str) : Str :=
  if pyUpper token ∈ opWordsU then token
  else if pyQuotedTok token then
    '"' :: (escape_fts_special_chars ((token.drop 1).dropLast) ++ ['"'])
  else escape_fts_special_chars token

/-- `parse_boolean_query` (lines 102-129): strip, normalize the boolean
operator words, tokenize preserving quoted phrases, process each token, and
join with single spaces. -/
def parse_boolean_query (query : Str) : Str :=
  joinSep [' '] ((pyTokens 0 (normalizeOps (pyStrip query))).map process_token)

/-- The search-term extraction of `search_documents` (lines 180-181):
re-tokenize the raw query with `"[^"]+"|\S+`, drop operator tokens, strip
surrounding double quotes. -/
def extract_search_terms (query : Str) : List Str :=
  ((pyTokens 1 query).filter (fun t => !(pyUpper t ∈ opWordsU : Bool))).map
    (pyStripChar '"')

/-!  Embedding of the snippet extractor (`app.py` lines 27-100). -/

/-- The boilerplate marker of `process_prefix`. -/
def chunkMarker : Str := chars "Prefix: This chunk"

/-- The `process_prefix` function (lines 92-100): if the text starts with the
boilerplate marker, drop the marker and any following whitespace
(`re.sub(r'^Prefix: This chunk\s*', '', text)`); otherwise return it
unchanged. -/
def process_marker (text : Str) : Str :=
  if chunkMarker.isPrefixOf text then
    (text.drop chunkMarker.length).dropWhile Char.isWhitespace
  else text

/-- Python `lines[a:b]` for `0 ≤ a ≤ b` (clamped at the length). -/
def pySliceN (l : List Str) (a b : Nat) : List Str := (l.drop a).take (b - a)

/-- Python `line[a:b]` on characters, with `Int` bounds already clamped to be
non-negative. -/
def pySliceC (l : Str) (a b : Int) : Str := (l.drop a.toNat).take (b.toNat - a.toNat)

/-- The index of the first line containing `term_lower` case-insensitively
(the inner loop of `extract_context`, lines 45-46). -/
def first_line_idx (lines : List Str) (term_lower : Str) : Option Nat :=
  lines.findIdx? (fun line => containsSub (pyLower line) term_lower)

/-- The context built for a term found in line `line_idx`
(`extract_context` lines 47-81).  A line longer than 300 characters gets a
focused 150-character window either side of the term position with ellipsis
markers when clamped, joined with one line before and the lines up to index
`line_idx + 3` exclusive after; a short line gets a window of `max_lines`
lines starting one line before the match, shifted back to fill, with
ellipsis markers when truncated. -/
def term_context (lines : List Str) (max_lines : Nat) (term_lower : Str)
    (line_idx : Nat) : Str :=
  let line := lines.getD line_idx []
  if 300 < line.length then
    let term_pos : Int := strFind (pyLower line) term_lower
    let start_char : Int := max 0 (term_pos - 150)
    let end_char : Int := min (line.length : Int) (term_pos + 150)
    let focused := pySliceC line start_char end_char
    let focused := if 0 < start_char then dots ++ focused else focused
    let focused := if end_char < (line.length : Int) then focused ++ dots else focused
    let start_line := line_idx - 1
    let end_line := min lines.length (line_idx + 3)
    joinNL (pySliceN lines start_line line_idx ++ [focused] ++
      pySliceN lines (line_idx + 1) end_line)
  else
    let start_line := line_idx - 1
    let end_line := min lines.length (start_line + max_lines)
    let start_line :=
      if end_line - start_line < max_lines ∧ 0 < start_line then end_line - max_lines
      else start_line
    let context := joinNL (pySliceN lines start_line end_line)
    let context := if 0 < start_line then dots ++ context else context
    if end_line < lines.length then context ++ dots else context

/-- `extract_context` (lines 27-90): empty text or empty term list yields the
first `max_lines` lines with a trailing ellipsis when truncated; otherwise the
first term found in some line (terms in order, each at its first matching
line) produces its context, with the same head fallback when no term matches.
`process_prefix` is applied last. -/
def extract_context (text : Str) (search_terms : List Str) (max_lines : Nat) : Str :=
  if text = [] ∨ search_terms = [] then
    let lines := (splitNL text).take max_lines
    let result := joinNL lines
    let result := if max_lines < (splitNL text).length then result ++ dots else result
    process_marker result
  else
    let lines := splitNL text
    let contexts := search_terms.filterMap (fun term =>
      (first_line_idx lines (pyStripChar '"' (pyLower term))).map
        (term_context lines max_lines (pyStripChar '"' (pyLower term))))
    let result :=
      match contexts.head? with
      | some c => c
      | none =>
        joinNL (lines.take max_lines) ++
          (if max_lines < lines.length then dots else [])
    process_marker result

/-!  Embedding of the result assembler (`app.py` lines 141-247) and the
`/search` route (lines 254-268). -/

/-- A row of the documents (or FTS) table as read by `search_documents`;
`metadata_filename` and `metadata_data_source_url` are nullable. -/
structure Row where
  element_id : Str
  text : Str
  record_id : Str
  metadata_filename : Option Str
  metadata_data_source_url : Option Str

/-- One emitted snippet result (the dict of `app.py` lines 215-221). -/
structure FormattedResult where
  element_id : Str
  context : Str
  pdf_url : Str
  filename : Str
  record_id : Str
deriving DecidableEq

/-- The JSON payload returned by `search_documents`: the success payload has
`error = none` and carries `limit`/`offset`; the error payload has
`limit = offset = none`. -/
structure SearchResponse where
  error : Option Str
  results : List FormattedResult
  total : Nat
  query : Str
  limit : Option Int
  offset : Option Int
deriving DecidableEq

/-- The external index collaborator: the FTS capability probe and the four
queries `search_documents` can run, each of which may fail (an exception in
Python, an `Except.error` here). -/
structure Index where
  hasFts : Bool
  ftsQuery : Str → Int → Int → Except Str (List Row)
  likeQuery : Str → Int → Int → Except Str (List Row)
  ftsCount : Str → Except Str Nat
  likeCount : Str → Except Str Nat

/-- Python `x or default` for a nullable string (`None` and `''` are falsy). -/
def pyOr (x : Option Str) (d : Str) : Str :=
  match x with
  | some s => if s = [] then d else s
  | none => d

/-- The configured S3 HTTPS base URL (default of `S3_BASE_URL`). -/
def S3_BASE_URL : Str :=
  chars "https://example-transformations-mlk-archive.s3.amazonaws.com/mlk-archive/"

/-- The `s3://` prefix recognized by the URL rewrite (line 207). -/
def s3Scheme : Str := chars "s3://example-transformations-mlk-archive/mlk-archive/"

/-- Hexadecimal digit (uppercase) for percent-encoding. -/
def hexDig (n : Nat) : Char := (chars "0123456789ABCDEF").getD n '0'

/-- A byte kept verbatim by `urllib.parse.quote` with the default
`safe='/'`: ASCII alphanumerics, `_`, `.`, `-`, `~` and `/`. -/
def isSafeByte (n : Nat) : Bool :=
  (65 ≤ n && n ≤ 90) || (97 ≤ n && n ≤ 122) || (48 ≤ n && n ≤ 57) ||
    (n == 95) || (n == 46) || (n == 45) || (n == 126) || (n == 47)

/-- UTF-8 bytes of one character. -/
def utf8Bytes (c : Char) : List Nat :=
  let n := c.toNat
  if n < 128 then [n]
  else if n < 2048 then [192 + n / 64, 128 + n % 64]
  else if n < 65536 then [224 + n / 4096, 128 + n / 64 % 64, 128 + n % 64]
  else [240 + n / 262144, 128 + n / 4096 % 64, 128 + n / 64 % 64, 128 + n % 64]

/-- `urllib.parse.quote(s)`: percent-encode every UTF-8 byte outside the safe
set. -/
def urlQuote (s : Str) : Str :=
  (s.flatMap utf8Bytes).flatMap (fun b =>
    if isSafeByte b then [Char.ofNat b] else '%' :: [hexDig (b / 16), hexDig (b % 16)])

/-- The PDF-URL resolution of `search_documents` (lines 202-213). -/
def resolveUrl (row : Row) : Str :=
  match row.metadata_data_source_url with
  | some u =>
    if u ≠ [] then
      if s3Scheme.isPrefixOf u then S3_BASE_URL ++ urlQuote (pyReplace s3Scheme [] u)
      else u
    else
      match row.metadata_filename with
      | some f => if f ≠ [] then S3_BASE_URL ++ urlQuote f else []
      | none => []
  | none =>
    match row.metadata_filename with
    | some f => if f ≠ [] then S3_BASE_URL ++ urlQuote f else []
    | none => []

/-- The per-hit term check of `search_documents` (lines 191-193). -/
def has_term (search_terms : List Str) (text : Str) : Bool :=
  search_terms.any (fun term => containsSub (pyLower text) (pyStripChar '"' (pyLower term)))

/-- The snippet result built for one accepted row (lines 198-221). -/
def mk_result (search_terms : List Str) (row : Row) : FormattedResult :=
  { element_id := row.element_id
    context := extract_context row.text search_terms 5
    pdf_url := resolveUrl row
    filename := pyOr row.metadata_filename (chars "Unknown")
    record_id := row.record_id }

/-- The dedup-and-filter loop of `search_documents` (lines 183-221): `seen`
is the set of filenames already emitted. -/
def format_rows (search_terms : List Str) : List Row → List Str → List FormattedResult
  | [], _ => []
  | row :: rest, seen =>
    let filename := pyOr row.metadata_filename (chars "Unknown")
    if filename ∈ seen then format_rows search_terms rest seen
    else if !has_term search_terms row.text then format_rows search_terms rest seen
    else mk_result search_terms row :: format_rows search_terms rest (filename :: seen)

/-- `search_documents` (lines 141-247): choose FTS or LIKE, fetch rows,
dedup/filter/format them, fetch the total count, and return the success
payload; any failure is caught and converted to the error payload. -/
def search_documents (idx : Index) (query : Str) (limit offset : Int) : SearchResponse :=
  let attempt : Except Str (List FormattedResult × Nat) :=
    (if idx.hasFts then idx.ftsQuery (parse_boolean_query query) limit offset
     else idx.likeQuery ('%' :: (query ++ ['%'])) limit offset).bind (fun rows =>
      let search_terms := extract_search_terms query
      let formatted := format_rows search_terms rows []
      (if idx.hasFts then idx.ftsCount (parse_boolean_query query)
       else idx.likeCount ('%' :: (query ++ ['%']))).bind (fun total =>
        Except.ok (formatted, total)))
  match attempt with
  | Except.ok (results, total) =>
    { error := none, results := results, total := total, query := query,
      limit := some limit, offset := some offset }
  | Except.error e =>
    { error := some e, results := [], total := 0, query := query,
      limit := none, offset := none }

/-- Outcome of the `/search` route's own logic: a validation-error payload
(with its literal `results` and `total` fields) or the delegated call to
`search_documents`. -/
inductive RouteStep where
  | invalid (error : Str) (results : List FormattedResult) (total : Nat)
  | run (q : Str) (limit offset : Int)

/-- The `/search` route validation (lines 254-267): trim `q`, cap `limit` at
100, reject an empty or one-character query before any search call. -/
def search_route (q : Option Str) (limitArg offsetArg : Int) : RouteStep :=
  let query := pyStrip (q.getD [])
  let limit := min limitArg 100
  let offset := offsetArg
  if query = [] then
    RouteStep.invalid (chars "Query parameter \"q\" is required") [] 0
  else if query.length < 2 then
    RouteStep.invalid (chars "Query must be at least 2 characters") [] 0
  else RouteStep.run query limit offset

/-- The full `/search` endpoint: validation, then `search_documents`. -/
def search_api (idx : Index) (q : Option Str) (limitArg offsetArg : Int) :
    Sum (Str × List FormattedResult × Nat) SearchResponse :=
  match search_route q limitArg offsetArg with
  | RouteStep.invalid e rs t => Sum.inl (e, rs, t)
  | RouteStep.run qs li of => Sum.inr (search_documents idx qs li of)

/-!  Analysis-side definitions: the maximal word runs of a character stream
(used to reason about the word-boundary substitutions), the first (term, line)
hit of the snippet extractor, and definitions written from the specification's
words, to be compared with the source-derived definitions above. -/

/-- Scanner computing the maximal word-character runs of a stream; `run` is
the run read so far. -/
def wordRunsGo (run : Str) : Str → List Str
  | [] => if run = [] then [] else [run]
  | c :: rest =>
    if isWordChar c then wordRunsGo (run ++ [c]) rest
    else (if run = [] then [] else [run]) ++ wordRunsGo [] rest

/-- The maximal word-character runs of a stream. -/
def wordRuns (l : Str) : List Str := wordRunsGo [] l

/-- The first term of `terms` (in order) contained case-insensitively in some
line, paired with its first matching line index — the hit whose context
`extract_context` returns (terms are lowercased and quote-stripped as in the
source). -/
def firstHit (lines : List Str) (terms : List Str) : Option (Str × Nat) :=
  (terms.filterMap (fun term =>
    (first_line_idx lines (pyStripChar '"' (pyLower term))).map
      (fun i => (pyStripChar '"' (pyLower term), i)))).head?

/-- Modelled from the spec: "any internal double quotes doubled (escaped)" —
each `"` becomes `""`, independently of the source's `str.replace`. -/
def specDoubleQuotes (t : Str) : Str :=
  t.foldr (fun c acc => if c = '"' then '"' :: '"' :: acc else c :: acc) []

/-- Modelled from the spec: the short-line window start before shifting,
"one line before the match (clamped at 0)". -/
def specShortStart0 (i : Nat) : Nat := i - 1

/-- Modelled from the spec: the short-line window end (the window holds "up to
`max_lines` lines"). -/
def specShortEnd (lines : List Str) (ml i : Nat) : Nat :=
  min lines.length (specShortStart0 i + ml)

/-- Modelled from the spec: "if the window is shorter than `max_lines` and
room exists before the start, shift the window earlier to fill it". -/
def specShortStart (lines : List Str) (ml i : Nat) : Nat :=
  let s0 := specShortStart0 i
  if ((lines.drop s0).take ml).length < ml ∧ 0 < s0 then specShortEnd lines ml i - ml
  else s0

/-- Modelled from the spec (§4.2 step 4): the context for a matching line of
length at most 300 — the window of lines with `...` markers on the truncated
sides. -/
def specShortContext (lines : List Str) (ml i : Nat) : Str :=
  let s := specShortStart lines ml i
  let e := specShortEnd lines ml i
  (if 0 < s then dots else []) ++ joinNL ((lines.drop s).take (e - s)) ++
    (if e < lines.length then dots else [])

/-- Modelled from the spec (§4.2 step 3) as amended: the context for a
matching line longer than 300 characters — a 150-character window either side
of the term offset, clamped with `...` markers, concatenated with one line
before (if any) and up to two lines after. -/
def specLongContext (lines : List Str) (tl : Str) (i : Nat) : Str :=
  let line := lines.getD i []
  let p := (strFindN (pyLower line) tl).getD 0
  let s := p - 150
  let e := min line.length (p + 150)
  let focused := (if 0 < s then dots else []) ++ ((line.drop s).take (e - s)) ++
    (if e < line.length then dots else [])
  joinNL ((if i = 0 then [] else [lines.getD (i - 1) []]) ++ [focused] ++
    (lines.drop (i + 1)).take 2)

/-- Modelled from the spec: the long-line context exactly as claim C5 states
it, with "up to three lines after the match line". -/
def claimedLongContext (lines : List Str) (tl : Str) (i : Nat) : Str :=
  let line := lines.getD i []
  let p := (strFindN (pyLower line) tl).getD 0
  let s := p - 150
  let e := min line.length (p + 150)
  let focused := (if 0 < s then dots else []) ++ ((line.drop s).take (e - s)) ++
    (if e < line.length then dots else [])
  joinNL ((if i = 0 then [] else [lines.getD (i - 1) []]) ++ [focused] ++
    (lines.drop (i + 1)).take 3)

/-!  Concrete fixtures used by witnesses and counterexamples. -/

/-- A row whose text contains the term `fbi`. -/
def rowFbi : Row :=
  { element_id := chars "e1"
    text := chars "FBI file"
    record_id := chars "r1"
    metadata_filename := some (chars "doc1.pdf")
    metadata_data_source_url := none }

/-- An index that returns `rowFbi` once and a positive count, for any match
expression. -/
def idxOne : Index :=
  { hasFts := true
    ftsQuery := fun _ _ _ => Except.ok [rowFbi]
    likeQuery := fun _ _ _ => Except.ok []
    ftsCount := fun _ => Except.ok 7
    likeCount := fun _ => Except.ok 0 }

/-- A row with no filename and no source URL. -/
def rowAnon : Row :=
  { element_id := chars "e2"
    text := chars "some text"
    record_id := chars "r2"
    metadata_filename := none
    metadata_data_source_url := none }

/-- A text whose first line is longer than 300 characters and is followed by
three further lines. -/
def textLong3 : Str := ('t' :: List.replicate 300 'x') ++ ('\n' :: chars "l1\nl2\nl3")

/-- A 160-character term, longer than the 150-character focus radius. -/
def longTermA : Str := List.replicate 160 'a'

/-- A single line of 310 characters starting with the 160-character term. -/
def textLongTerm : Str := longTermA ++ List.replicate 150 'b'

/-- A single line longer than 300 characters that starts with the boilerplate
marker. -/
def textMarkerLong : Str := chunkMarker ++ (' ' :: List.replicate 290 'z')

/-- The snippet result `search_documents` produces for `rowFbi` on the query
`fbi`. -/
def frFbi : FormattedResult :=
  { element_id := chars "e1"
    context := chars "FBI file"
    pdf_url :=
      chars "https://example-transformations-mlk-archive.s3.amazonaws.com/mlk-archive/doc1.pdf"
    filename := chars "doc1.pdf"
    record_id := chars "r1" }

/-!  Lemmas about the string primitives. -/

lemma dropWhile_head_false {p : Char → Bool} :
    ∀ {l : Str} {c : Char} {rest : Str}, l.dropWhile p = c :: rest → p c = false := by
  intro l
  induction l with
  | nil => intro c rest h; simp [List.dropWhile] at h
  | cons a t ih =>
    intro c rest h
    rw [List.dropWhile_cons] at h
    by_cases hp : p a = true
    · rw [if_pos hp] at h; exact ih h
    · rw [if_neg hp] at h
      cases h
      simpa using hp

lemma splitOnQuote_eq {l inner rest' : Str} (h : splitOnQuote l = some (inner, rest')) :
    l = inner ++ '"' :: rest' := by
  unfold splitOnQuote at h
  cases hd : l.dropWhile (fun c => !(c == '"')) with
  | nil => rw [hd] at h; exact absurd h (by simp)
  | cons c rest =>
    rw [hd] at h
    have hc : c = '"' := by
      have := dropWhile_head_false hd
      simpa using this
    simp only [Option.some.injEq, Prod.mk.injEq] at h
    obtain ⟨h1, h2⟩ := h
    have := List.takeWhile_append_dropWhile (p := fun c => !(c == '"')) (l := l)
    rw [hd, h1, h2, hc] at this
    exact this.symm

lemma splitOnQuote_length {l inner rest' : Str}
    (h : splitOnQuote l = some (inner, rest')) : rest'.length < l.length := by
  have := splitOnQuote_eq h
  subst this
  simp
  omega

lemma length_dropWhile_le' (p : Char → Bool) (l : Str) :
    (l.dropWhile p).length ≤ l.length :=
  (List.dropWhile_suffix p).length_le

lemma pyTokensF_succ (m fuel : Nat) (c : Char) (rest : Str) :
    pyTokensF m (fuel + 1) (c :: rest) =
      if c.isWhitespace then pyTokensF m fuel rest
      else if c = '"' then
        match splitOnQuote rest with
        | some (inner, rest') =>
          if m ≤ inner.length then
            ('"' :: (inner ++ ['"'])) :: pyTokensF m fuel rest'
          else
            (c :: rest.takeWhile notWs) :: pyTokensF m fuel (rest.dropWhile notWs)
        | none =>
          (c :: rest.takeWhile notWs) :: pyTokensF m fuel (rest.dropWhile notWs)
      else
        (c :: rest.takeWhile notWs) :: pyTokensF m fuel (rest.dropWhile notWs) := rfl

lemma pyTokensF_mono (m : Nat) :
    ∀ (n : Nat) {l : Str} (n' : Nat), l.length ≤ n → l.length ≤ n' →
      pyTokensF m n l = pyTokensF m n' l := by
  intro n
  induction n with
  | zero =>
    intro l n' h _
    have : l = [] := List.length_eq_zero.mp (Nat.le_zero.mp h)
    subst this
    cases n' <;> rfl
  | succ k ih =>
    intro l n' h h'
    cases l with
    | nil => cases n' <;> rfl
    | cons c rest =>
      cases n' with
      | zero => simp at h'
      | succ k' =>
        have hr : rest.length ≤ k := by simpa using h
        have hr' : rest.length ≤ k' := by simpa using h'
        have hd : (rest.dropWhile notWs).length ≤ k :=
          le_trans (length_dropWhile_le' _ _) hr
        have hd' : (rest.dropWhile notWs).length ≤ k' :=
          le_trans (length_dropWhile_le' _ _) hr'
        rw [pyTokensF_succ, pyTokensF_succ]
        by_cases hws : c.isWhitespace = true
        · rw [if_pos hws, if_pos hws]
          exact ih k' hr hr'
        · rw [if_neg hws, if_neg hws]
          by_cases hq : c = '"'
          · rw [if_pos hq, if_pos hq]
            cases hs : splitOnQuote rest with
            | none =>
              simp only [ih k' hd hd']
            | some pr =>
              obtain ⟨inner, rest'⟩ := pr
              have hlt : rest'.length ≤ k := le_trans (le_of_lt (splitOnQuote_length hs)) hr
              have hlt' : rest'.length ≤ k' := le_trans (le_of_lt (splitOnQuote_length hs)) hr'
              simp only
              by_cases hm : m ≤ inner.length
              · rw [if_pos hm, if_pos hm, ih k' hlt hlt']
              · rw [if_neg hm, if_neg hm, ih k' hd hd']
          · rw [if_neg hq, if_neg hq, ih k' hd hd']

lemma pyTokens_nil (m : Nat) : pyTokens m [] = [] := rfl

lemma pyTokens_cons_ws {m : Nat} {c : Char} {rest : Str} (h : c.isWhitespace = true) :
    pyTokens m (c :: rest) = pyTokens m rest := by
  show pyTokensF m (rest.length + 1) (c :: rest) = pyTokens m rest
  rw [pyTokensF_succ, if_pos h]
  rfl

lemma pyTokens_cons_quote {m : Nat} {c : Char} {rest inner rest' : Str}
    (hws : c.isWhitespace = false) (hq : c = '"')
    (hs : splitOnQuote rest = some (inner, rest')) (hm : m ≤ inner.length) :
    pyTokens m (c :: rest) = ('"' :: (inner ++ ['"'])) :: pyTokens m rest' := by
  show pyTokensF m (rest.length + 1) (c :: rest) = _
  rw [pyTokensF_succ, if_neg (by simp [hws]), if_pos hq]
  simp only [hs, if_pos hm]
  refine congrArg (_ :: ·) ?_
  exact pyTokensF_mono m rest.length rest'.length
    (le_of_lt (splitOnQuote_length hs)) le_rfl

lemma pyTokens_cons_quote_none {m : Nat} {c : Char} {rest : Str}
    (hws : c.isWhitespace = false) (hq : c = '"') (hs : splitOnQuote rest = none) :
    pyTokens m (c :: rest) =
      (c :: rest.takeWhile notWs) :: pyTokens m (rest.dropWhile notWs) := by
  show pyTokensF m (rest.length + 1) (c :: rest) = _
  rw [pyTokensF_succ, if_neg (by simp [hws]), if_pos hq]
  simp only [hs]
  refine congrArg (_ :: ·) ?_
  exact pyTokensF_mono m rest.length (rest.dropWhile notWs).length
    (length_dropWhile_le' _ _) le_rfl

lemma pyTokens_cons_quote_short {m : Nat} {c : Char} {rest inner rest' : Str}
    (hws : c.isWhitespace = false) (hq : c = '"')
    (hs : splitOnQuote rest = some (inner, rest')) (hm : inner.length < m) :
    pyTokens m (c :: rest) =
      (c :: rest.takeWhile notWs) :: pyTokens m (rest.dropWhile notWs) := by
  show pyTokensF m (rest.length + 1) (c :: rest) = _
  rw [pyTokensF_succ, if_neg (by simp [hws]), if_pos hq]
  simp only [hs, if_neg (Nat.not_le.mpr hm)]
  refine congrArg (_ :: ·) ?_
  exact pyTokensF_mono m rest.length (rest.dropWhile notWs).length
    (length_dropWhile_le' _ _) le_rfl

lemma pyTokens_cons_tok {m : Nat} {c : Char} {rest : Str}
    (hws : c.isWhitespace = false) (hq : c ≠ '"') :
    pyTokens m (c :: rest) =
      (c :: rest.takeWhile notWs) :: pyTokens m (rest.dropWhile notWs) := by
  show pyTokensF m (rest.length + 1) (c :: rest) = _
  rw [pyTokensF_succ, if_neg (by simp [hws]), if_neg hq]
  refine congrArg (_ :: ·) ?_
  exact pyTokensF_mono m rest.length (rest.dropWhile notWs).length
    (length_dropWhile_le' _ _) le_rfl

/-!  Word runs and the operator substitutions. -/

lemma ws_not_word {c : Char} (h : c.isWhitespace = true) : isWordChar c = false := by
  have : ((c = ' ' ∨ c = '\t') ∨ c = '\r') ∨ c = '\n' := by
    simpa [Char.isWhitespace] using h
  rcases this with ((rfl | rfl) | rfl) | rfl <;> decide

lemma space_not_word : isWordChar ' ' = false := by decide

lemma word_notWs {c : Char} (h : isWordChar c = true) : notWs c = true := by
  unfold notWs
  by_cases hw : c.isWhitespace = true
  · rw [ws_not_word hw] at h; cases h
  · simp [hw]

lemma quote_not_word : isWordChar '"' = false := by decide

lemma wordRunsGo_nonword {c : Char} {rest : Str} (h : isWordChar c = false) :
    wordRunsGo [] (c :: rest) = wordRunsGo [] rest := by
  simp [wordRunsGo, h]

lemma wordRunsGo_word_append :
    ∀ (run₂ : Str), (∀ c ∈ run₂, isWordChar c = true) →
      ∀ (run₁ rest : Str), wordRunsGo run₁ (run₂ ++ rest) = wordRunsGo (run₁ ++ run₂) rest := by
  intro run₂
  induction run₂ with
  | nil => intro _ run₁ rest; simp
  | cons c r ih =>
    intro hword run₁ rest
    have hc : isWordChar c = true := hword c (by simp)
    show wordRunsGo run₁ (c :: (r ++ rest)) = _
    rw [wordRunsGo, if_pos hc, ih (fun x hx => hword x (by simp [hx])) (run₁ ++ [c]) rest]
    simp

lemma wordRunsGo_run_spec :
    ∀ (rest run : Str), run ≠ [] → (∀ c ∈ run, isWordChar c = true) →
      wordRunsGo run rest =
        (run ++ rest.takeWhile isWordChar) :: wordRunsGo [] (rest.dropWhile isWordChar) := by
  intro rest
  induction rest with
  | nil =>
    intro run hne _
    simp [wordRunsGo, hne]
  | cons c r ih =>
    intro run hne hword
    by_cases hc : isWordChar c = true
    · rw [wordRunsGo, if_pos hc, ih (run ++ [c]) (by simp)
        (by intro x hx; rcases List.mem_append.mp hx with h | h
            · exact hword x h
            · simp at h; subst h; exact hc),
        List.takeWhile_cons, if_pos hc, List.dropWhile_cons, if_pos hc]
      simp
    · rw [wordRunsGo, if_neg (by simpa using hc), if_neg hne,
        List.takeWhile_cons, if_neg (by simpa using hc),
        List.dropWhile_cons, if_neg (by simpa using hc)]
      rw [show wordRunsGo [] (c :: r) = wordRunsGo [] r from
        wordRunsGo_nonword (by simpa using hc)]
      simp

lemma wordRunsGo_word_append0 (run₂ : Str) (h : ∀ c ∈ run₂, isWordChar c = true)
    (rest : Str) : wordRunsGo [] (run₂ ++ rest) = wordRunsGo run₂ rest := by
  have := wordRunsGo_word_append run₂ h [] rest
  simpa using this

lemma wordRunsGo_elem_flush {run r : Str} (h : r ∈ (if run = [] then ([] : List Str) else [run])) :
    r = run ∧ run ≠ [] := by
  by_cases hrn : run = []
  · simp [hrn] at h
  · simp [hrn] at h; exact ⟨h, hrn⟩

lemma mem_wordRunsGo_append {d : Char} (hd : isWordChar d = false) :
    ∀ (a run : Str) {b r : Str}, r ∈ wordRunsGo [] b → r ∈ wordRunsGo run (a ++ d :: b) := by
  intro a
  induction a with
  | nil =>
    intro run b r h
    show r ∈ wordRunsGo run (d :: b)
    rw [wordRunsGo, if_neg (by simp [hd])]
    exact List.mem_append_right _ h
  | cons c a' ih =>
    intro run b r h
    show r ∈ wordRunsGo run (c :: (a' ++ d :: b))
    by_cases hc : isWordChar c = true
    · rw [wordRunsGo, if_pos hc]
      exact ih (run ++ [c]) h
    · rw [wordRunsGo, if_neg (by simpa using hc)]
      exact List.mem_append_right _ (ih [] h)

lemma subGo_wordRuns {w : Str} (hwword : ∀ c ∈ w, isWordChar c = true) (hwne : w ≠ []) :
    ∀ (l run : Str), (∀ c ∈ run, isWordChar c = true) →
      ∀ r ∈ wordRuns (subGo w (' ' :: (w ++ [' '])) run l),
        r = w ∨ (r ∈ wordRunsGo run l ∧ r.map Char.toUpper ≠ w) := by
  intro l
  induction l with
  | nil =>
    intro run hrun r hr
    unfold subGo subFlush at hr
    by_cases hm : run.map Char.toUpper = w
    · rw [if_pos hm] at hr
      left
      have heq : wordRuns (' ' :: (w ++ [' '])) = [w] := by
        unfold wordRuns
        rw [wordRunsGo_nonword space_not_word, wordRunsGo_word_append0 w hwword [' ']]
        simp [wordRunsGo, space_not_word, hwne]
      rw [heq] at hr
      simpa using hr
    · rw [if_neg hm] at hr
      unfold wordRuns at hr
      have heq : wordRunsGo [] run = wordRunsGo run [] := by
        have := wordRunsGo_word_append0 run hrun []
        simpa using this
      rw [heq] at hr
      obtain ⟨hrr, hrn⟩ := wordRunsGo_elem_flush (by simpa [wordRunsGo] using hr)
      subst hrr
      exact Or.inr ⟨hr, hm⟩
  | cons c rest ih =>
    intro run hrun r hr
    by_cases hc : isWordChar c = true
    · rw [show subGo w (' ' :: (w ++ [' '])) run (c :: rest) =
          subGo w (' ' :: (w ++ [' '])) (run ++ [c]) rest from by
        rw [subGo, if_pos hc]] at hr
      have := ih (run ++ [c])
        (by intro x hx
            rcases List.mem_append.mp hx with h | h
            · exact hrun x h
            · simp at h; subst h; exact hc) r hr
      rcases this with h | ⟨h1, h2⟩
      · exact Or.inl h
      · refine Or.inr ⟨?_, h2⟩
        rw [wordRunsGo, if_pos hc]
        exact h1
    · rw [show subGo w (' ' :: (w ++ [' '])) run (c :: rest) =
          subFlush w (' ' :: (w ++ [' '])) run ++ c :: subGo w (' ' :: (w ++ [' '])) [] rest
          from by rw [subGo, if_neg (by simpa using hc)]] at hr
      unfold subFlush at hr
      by_cases hm : run.map Char.toUpper = w
      · rw [if_pos hm] at hr
        unfold wordRuns at hr
        rw [show (' ' :: (w ++ [' '])) ++ c :: subGo w (' ' :: (w ++ [' '])) [] rest =
            ' ' :: (w ++ (' ' :: (c :: subGo w (' ' :: (w ++ [' '])) [] rest))) from by
          simp] at hr
        rw [wordRunsGo_nonword space_not_word, wordRunsGo_word_append0 w hwword _] at hr
        rw [show wordRunsGo w (' ' :: (c :: subGo w (' ' :: (w ++ [' '])) [] rest)) =
            (if w = [] then [] else [w]) ++
              wordRunsGo [] (c :: subGo w (' ' :: (w ++ [' '])) [] rest) from by
          rw [wordRunsGo, if_neg (by simp [space_not_word])]] at hr
        rw [if_neg hwne, wordRunsGo_nonword (by simpa using hc)] at hr
        rcases List.mem_cons.mp (by simpa using hr) with h | h
        · exact Or.inl h
        · rcases ih [] (by intro x hx; cases hx) r h with h' | ⟨h1, h2⟩
          · exact Or.inl h'
          · refine Or.inr ⟨?_, h2⟩
            rw [wordRunsGo, if_neg (by simpa using hc)]
            exact List.mem_append_right _ h1
      · rw [if_neg hm] at hr
        unfold wordRuns at hr
        rw [show run ++ c :: subGo w (' ' :: (w ++ [' '])) [] rest =
            run ++ (c :: subGo w (' ' :: (w ++ [' '])) [] rest) from rfl,
          wordRunsGo_word_append0 run hrun _] at hr
        rw [show wordRunsGo run (c :: subGo w (' ' :: (w ++ [' '])) [] rest) =
            (if run = [] then [] else [run]) ++
              wordRunsGo [] (subGo w (' ' :: (w ++ [' '])) [] rest) from by
          rw [wordRunsGo, if_neg (by simpa using hc)]] at hr
        rcases List.mem_append.mp hr with h | h
        · obtain ⟨hrr, hrn⟩ := wordRunsGo_elem_flush h
          subst hrr
          refine Or.inr ⟨?_, hm⟩
          rw [wordRunsGo, if_neg (by simpa using hc)]
          exact List.mem_append_left _ (by simp [hrn])
        · rcases ih [] (by intro x hx; cases hx) r h with h' | ⟨h1, h2⟩
          · exact Or.inl h'
          · refine Or.inr ⟨?_, h2⟩
            rw [wordRunsGo, if_neg (by simpa using hc)]
            exact List.mem_append_right _ h1

lemma subOpWord_wordRuns {w : Str} (hwword : ∀ c ∈ w, isWordChar c = true)
    (hwne : w ≠ []) {l r : Str} (hr : r ∈ wordRuns (subOpWord w l)) :
    r = w ∨ (r ∈ wordRuns l ∧ r.map Char.toUpper ≠ w) :=
  subGo_wordRuns hwword hwne l [] (by intro x hx; cases hx) r hr

lemma takeWhile_word_eq :
    ∀ {rest : Str}, (∀ c ∈ rest.takeWhile notWs, isWordChar c = true) →
      rest.takeWhile notWs = rest.takeWhile isWordChar ∧
        rest.dropWhile notWs = rest.dropWhile isWordChar := by
  intro rest
  induction rest with
  | nil => intro _; exact ⟨rfl, rfl⟩
  | cons c r ih =>
    intro h
    by_cases hn : notWs c = true
    · have hc : isWordChar c = true := h c (by rw [List.takeWhile_cons, if_pos hn]; simp)
      have hr := ih (fun x hx =>
        h x (by rw [List.takeWhile_cons, if_pos hn]; exact List.mem_cons_of_mem _ hx))
      rw [List.takeWhile_cons, List.takeWhile_cons, List.dropWhile_cons,
        List.dropWhile_cons, if_pos hn, if_pos hc, if_pos hn, if_pos hc, hr.1, hr.2]
      exact ⟨rfl, rfl⟩
    · have hc : ¬ isWordChar c = true := by
        intro hw
        exact hn (word_notWs hw)
      rw [List.takeWhile_cons, List.takeWhile_cons, List.dropWhile_cons,
        List.dropWhile_cons, if_neg hn, if_neg hc, if_neg hn, if_neg hc]
      exact ⟨rfl, rfl⟩

lemma tok_branch_mem {m : Nat} {c : Char} {rest t : Str}
    (ht : t ∈ (c :: rest.takeWhile notWs) :: pyTokens m (rest.dropWhile notWs))
    (hword : ∀ x ∈ t, isWordChar x = true)
    (hrec : ∀ {t' : Str}, t' ∈ pyTokens m (rest.dropWhile notWs) →
      (∀ x ∈ t', isWordChar x = true) → t' ∈ wordRuns (rest.dropWhile notWs)) :
    t ∈ wordRuns (c :: rest) := by
  rcases List.mem_cons.mp ht with rfl | ht'
  · have hc : isWordChar c = true := hword c (by simp)
    have htw : ∀ x ∈ rest.takeWhile notWs, isWordChar x = true := fun x hx =>
      hword x (List.mem_cons_of_mem _ hx)
    obtain ⟨he1, _⟩ := takeWhile_word_eq htw
    unfold wordRuns
    rw [show wordRunsGo [] (c :: rest) = wordRunsGo [c] rest from by
      rw [wordRunsGo, if_pos hc]; rfl]
    rw [wordRunsGo_run_spec rest [c] (by simp)
      (by intro x hx; simp at hx; subst hx; exact hc)]
    rw [he1]
    exact List.mem_cons_self _ _
  · have hmem := hrec ht' hword
    cases hb : rest.dropWhile notWs with
    | nil =>
      rw [hb] at hmem
      simp [wordRuns, wordRunsGo] at hmem
    | cons d b' =>
      have hd : notWs d = false := dropWhile_head_false hb
      have hdw : isWordChar d = false := by
        by_cases h : isWordChar d = true
        · rw [word_notWs h] at hd; cases hd
        · simpa using h
      have hdecomp : c :: rest = (c :: rest.takeWhile notWs) ++ d :: b' := by
        conv_lhs => rw [← List.takeWhile_append_dropWhile (p := notWs) (l := rest)]
        rw [hb]
        simp
      unfold wordRuns
      rw [hdecomp]
      apply mem_wordRunsGo_append hdw (c :: rest.takeWhile notWs) []
      rw [hb, wordRuns, wordRunsGo_nonword hdw] at hmem
      exact hmem

lemma token_mem_wordRuns :
    ∀ (n : Nat) (l : Str), l.length ≤ n → ∀ {m : Nat} {t : Str},
      t ∈ pyTokens m l → (∀ c ∈ t, isWordChar c = true) → t ∈ wordRuns l := by
  intro n
  induction n with
  | zero =>
    intro l h m t ht _
    have : l = [] := List.length_eq_zero.mp (Nat.le_zero.mp h)
    subst this
    cases ht
  | succ k ih =>
    intro l hl m t ht hword
    cases l with
    | nil => cases ht
    | cons c rest =>
      have hrest : rest.length ≤ k := by simpa using hl
      have hdrop : (rest.dropWhile notWs).length ≤ k :=
        le_trans (length_dropWhile_le' _ _) hrest
      by_cases hws : c.isWhitespace = true
      · rw [pyTokens_cons_ws hws] at ht
        unfold wordRuns
        rw [wordRunsGo_nonword (ws_not_word hws)]
        exact ih rest hrest ht hword
      · have hwsf : c.isWhitespace = false := by simpa using hws
        by_cases hq : c = '"'
        · cases hsq : splitOnQuote rest with
          | some pr =>
            obtain ⟨inner, rest'⟩ := pr
            by_cases hm : m ≤ inner.length
            · rw [pyTokens_cons_quote hwsf hq hsq hm] at ht
              rcases List.mem_cons.mp ht with rfl | ht'
              · have := hword '"' (by simp)
                rw [quote_not_word] at this
                cases this
              · have hr' : rest'.length ≤ k :=
                  le_trans (le_of_lt (splitOnQuote_length hsq)) hrest
                have hmem := ih rest' hr' ht' hword
                subst hq
                unfold wordRuns
                rw [splitOnQuote_eq hsq, wordRunsGo_nonword quote_not_word]
                exact mem_wordRunsGo_append quote_not_word inner [] hmem
            · rw [pyTokens_cons_quote_short hwsf hq hsq (Nat.not_le.mp hm)] at ht
              exact tok_branch_mem ht hword (fun ht' hw' => ih _ hdrop ht' hw')
          | none =>
            rw [pyTokens_cons_quote_none hwsf hq hsq] at ht
            exact tok_branch_mem ht hword (fun ht' hw' => ih _ hdrop ht' hw')
        · rw [pyTokens_cons_tok hwsf hq] at ht
          exact tok_branch_mem ht hword (fun ht' hw' => ih _ hdrop ht' hw')

lemma isLower_iff_toNat (c : Char) : c.isLower = true ↔ (97 ≤ c.toNat ∧ c.toNat ≤ 122) := by
  unfold Char.isLower
  simp [UInt32.le_def, BitVec.le_def, Char.toNat, UInt32.toNat]

lemma isWordChar_of_toUpper_alpha {c : Char} (h : c.toUpper.isAlpha = true) :
    isWordChar c = true := by
  by_cases hl : 97 ≤ c.toNat ∧ c.toNat ≤ 122
  · unfold isWordChar
    simp [Char.isAlphanum, Char.isAlpha, (isLower_iff_toNat c).mpr hl]
  · have heq : c.toUpper = c := by
      unfold Char.toUpper
      rw [if_neg hl]
    rw [heq] at h
    unfold isWordChar
    simp [Char.isAlphanum, h]

lemma upper_op_allword {t : Str} (h : pyUpper t ∈ opWordsU) :
    ∀ c ∈ t, isWordChar c = true := by
  intro c hc
  apply isWordChar_of_toUpper_alpha
  have hmem : c.toUpper ∈ pyUpper t := List.mem_map_of_mem _ hc
  rcases (by simpa [opWordsU] using h :
      pyUpper t = chars "AND" ∨ pyUpper t = chars "OR" ∨ pyUpper t = chars "NOT")
    with he | he | he
  · rw [he, show chars "AND" = ['A', 'N', 'D'] from rfl] at hmem
    rcases (by simpa using hmem : c.toUpper = 'A' ∨ c.toUpper = 'N' ∨ c.toUpper = 'D')
      with h' | h' | h' <;> rw [h'] <;> decide
  · rw [he, show chars "OR" = ['O', 'R'] from rfl] at hmem
    rcases (by simpa using hmem : c.toUpper = 'O' ∨ c.toUpper = 'R')
      with h' | h' <;> rw [h'] <;> decide
  · rw [he, show chars "NOT" = ['N', 'O', 'T'] from rfl] at hmem
    rcases (by simpa using hmem : c.toUpper = 'N' ∨ c.toUpper = 'O' ∨ c.toUpper = 'T')
      with h' | h' | h' <;> rw [h'] <;> decide

lemma ops_uppercase_of_normalized {l t : Str} {m : Nat}
    (ht : t ∈ pyTokens m (normalizeOps l)) (hop : pyUpper t ∈ opWordsU) :
    t ∈ opWordsU := by
  have hruns : t ∈ wordRuns (normalizeOps l) :=
    token_mem_wordRuns (normalizeOps l).length (normalizeOps l) le_rfl ht
      (upper_op_allword hop)
  unfold normalizeOps at hruns
  rcases subOpWord_wordRuns (by decide) (by decide) hruns with h | ⟨h1, hne1⟩
  · simp [opWordsU, h]
  rcases subOpWord_wordRuns (by decide) (by decide) h1 with h | ⟨h2, hne2⟩
  · simp [opWordsU, h]
  rcases subOpWord_wordRuns (by decide) (by decide) h2 with h | ⟨_, hne3⟩
  · simp [opWordsU, h]
  rcases (by simpa [opWordsU] using hop :
      pyUpper t = chars "AND" ∨ pyUpper t = chars "OR" ∨ pyUpper t = chars "NOT")
    with he | he | he
  · exact absurd he hne3
  · exact absurd he hne2
  · exact absurd he hne1

/-!  Correctness of the substring search. -/

lemma strFindAux_some {pat : Str} :
    ∀ {hay : Str} {i n : Nat}, strFindAux pat hay i = some n →
      ∃ a b, hay = a ++ pat ++ b ∧ i + a.length = n := by
  intro hay
  induction hay with
  | nil =>
    intro i n h
    unfold strFindAux at h
    by_cases hp : pat.isPrefixOf ([] : Str) = true
    · rw [if_pos hp] at h
      cases h
      have : pat = [] := by
        have := List.isPrefixOf_iff_prefix.mp hp
        simpa [List.prefix_nil] using this
      exact ⟨[], [], by simp [this], by simp⟩
    · rw [if_neg hp] at h; cases h
  | cons c t ih =>
    intro i n h
    unfold strFindAux at h
    by_cases hp : pat.isPrefixOf (c :: t) = true
    · rw [if_pos hp] at h
      cases h
      obtain ⟨b, hb⟩ := List.isPrefixOf_iff_prefix.mp hp
      exact ⟨[], b, by simp [hb.symm], by simp⟩
    · rw [if_neg hp] at h
      obtain ⟨a, b, hab, hlen⟩ := ih h
      exact ⟨c :: a, b, by simp [hab], by simp; omega⟩

lemma strFindAux_isSome {pat : Str} :
    ∀ {hay : Str} {i : Nat}, (strFindAux pat hay i).isSome = true ↔ pat <:+: hay := by
  intro hay
  induction hay with
  | nil =>
    intro i
    unfold strFindAux
    by_cases hp : pat.isPrefixOf ([] : Str) = true
    · rw [if_pos hp]
      have : pat = [] := by
        have := List.isPrefixOf_iff_prefix.mp hp
        simpa [List.prefix_nil] using this
      simp [this]
    · rw [if_neg hp]
      constructor
      · intro h; simp at h
      · intro h
        have hnil : pat = [] := List.infix_nil.mp h
        subst hnil
        exact absurd (List.isPrefixOf_iff_prefix.mpr List.nil_prefix) hp
  | cons c t ih =>
    intro i
    unfold strFindAux
    by_cases hp : pat.isPrefixOf (c :: t) = true
    · rw [if_pos hp]
      simp only [Option.isSome_some, true_iff]
      exact (List.isPrefixOf_iff_prefix.mp hp).isInfix
    · rw [if_neg hp]
      rw [ih]
      constructor
      · intro h; exact List.infix_cons h
      · intro h
        rcases List.infix_cons_iff.mp h with h1 | h2
        · exact absurd (List.isPrefixOf_iff_prefix.mpr h1) hp
        · exact h2

lemma containsSub_iff {hay pat : Str} : containsSub hay pat = true ↔ pat <:+: hay :=
  strFindAux_isSome

lemma strFindN_some {hay pat : Str} {n : Nat} (h : strFindN hay pat = some n) :
    ∃ a b, hay = a ++ pat ++ b ∧ a.length = n := by
  obtain ⟨a, b, hab, hlen⟩ := strFindAux_some h
  exact ⟨a, b, hab, by omega⟩

/-!  Membership in a join is an infix of the join. -/

lemma mem_joinSep_infix {sep : Str} :
    ∀ {parts : List Str} {t : Str}, t ∈ parts → t <:+: joinSep sep parts := by
  intro parts
  induction parts with
  | nil => intro t h; cases h
  | cons x rest ih =>
    intro t h
    cases rest with
    | nil =>
      rcases List.mem_cons.mp h with rfl | h
      · exact List.infix_rfl
      · cases h
    | cons y rest' =>
      rcases List.mem_cons.mp h with rfl | h
      · show t <:+: t ++ sep ++ joinSep sep (y :: rest')
        rw [List.append_assoc]
        exact (List.prefix_append t (sep ++ joinSep sep (y :: rest'))).isInfix
      · show t <:+: x ++ sep ++ joinSep sep (y :: rest')
        exact (ih h).trans (List.suffix_append (x ++ sep) (joinSep sep (y :: rest'))).isInfix

/-!  The source's quote doubling agrees with the specification's. -/

lemma pyReplaceF_dq :
    ∀ (fuel : Nat) (t : Str), t.length ≤ fuel →
      pyReplaceF ['"'] ['"', '"'] fuel t = specDoubleQuotes t := by
  intro fuel
  induction fuel with
  | zero =>
    intro t h
    have : t = [] := List.length_eq_zero.mp (Nat.le_zero.mp h)
    subst this
    rfl
  | succ k ih =>
    intro t h
    cases t with
    | nil => rfl
    | cons c rest =>
      have hr : rest.length ≤ k := by simpa using h
      show pyReplaceF ['"'] ['"', '"'] (k + 1) (c :: rest) = _
      by_cases hc : c = '"'
      · subst hc
        rw [pyReplaceF, if_pos ⟨by simp,
            List.isPrefixOf_iff_prefix.mpr ⟨rest, rfl⟩⟩]
        show '"' :: '"' :: pyReplaceF ['"'] ['"', '"'] k rest = _
        rw [ih rest hr]
        simp [specDoubleQuotes]
      · rw [pyReplaceF, if_neg (by
          rintro ⟨-, hp⟩
          obtain ⟨s, hs⟩ := List.isPrefixOf_iff_prefix.mp hp
          exact hc (by cases hs; rfl))]
        rw [ih rest hr]
        simp [specDoubleQuotes, hc]

lemma pyReplace_dq (t : Str) : pyReplace ['"'] ['"', '"'] t = specDoubleQuotes t :=
  pyReplaceF_dq t.length t le_rfl

/-!  Structure of the snippet extractor. -/

lemma findIdx?_some_spec {p : Str → Bool} :
    ∀ {l : List Str} {i : Nat}, l.findIdx? p = some i →
      i < l.length ∧ p (l.getD i []) = true := by
  intro l
  induction l with
  | nil => intro i h; simp at h
  | cons x xs ih =>
    intro i h
    rw [List.findIdx?_cons] at h
    by_cases hp : p x = true
    · rw [if_pos hp] at h
      cases h
      exact ⟨by simp, by simpa using hp⟩
    · rw [if_neg hp] at h
      rw [show (1 : Nat) = 0 + 1 from rfl, List.findIdx?_start_succ] at h
      obtain ⟨j, hj, rfl⟩ := Option.map_eq_some'.mp h
      obtain ⟨hlt, hpj⟩ := ih hj
      exact ⟨by simpa using hlt, by simpa using hpj⟩

lemma first_line_idx_spec {lines : List Str} {tl : Str} {i : Nat}
    (h : first_line_idx lines tl = some i) :
    i < lines.length ∧ containsSub (pyLower (lines.getD i [])) tl = true :=
  findIdx?_some_spec h

lemma head_filterMap_pair (terms lines : List Str) (ml : Nat) :
    (terms.filterMap (fun term =>
      (first_line_idx lines (pyStripChar '"' (pyLower term))).map
        (term_context lines ml (pyStripChar '"' (pyLower term))))).head? =
    (firstHit lines terms).map (fun pr => term_context lines ml pr.1 pr.2) := by
  unfold firstHit
  induction terms with
  | nil => rfl
  | cons term rest ih =>
    cases hf : first_line_idx lines (pyStripChar '"' (pyLower term)) with
    | none => simpa [List.filterMap_cons, hf] using ih
    | some i => simp [List.filterMap_cons, hf]

lemma extract_eq_firstHit {text : Str} {terms : List Str} {tl : Str} {i ml : Nat}
    (htext : text ≠ []) (hterms : terms ≠ [])
    (hfirst : firstHit (splitNL text) terms = some (tl, i)) :
    extract_context text terms ml = process_marker (term_context (splitNL text) ml tl i) := by
  have hh := head_filterMap_pair terms (splitNL text) ml
  rw [hfirst] at hh
  unfold extract_context
  rw [if_neg (by simp [htext, hterms])]
  simp only [hh]
  rfl

lemma take_eq_take' : ∀ (l : List Str) {m k : Nat},
    min m l.length = min k l.length → l.take m = l.take k := by
  intro l
  induction l with
  | nil => intro m k _; simp
  | cons x xs ih =>
    intro m k h
    cases m with
    | zero =>
      cases k with
      | zero => rfl
      | succ k' =>
        exfalso
        simp only [List.length_cons] at h
        omega
    | succ m' =>
      cases k with
      | zero =>
        exfalso
        simp only [List.length_cons] at h
        omega
      | succ k' =>
        simp only [List.take_succ_cons]
        have h' : min m' xs.length = min k' xs.length := by
          simp only [List.length_cons] at h
          omega
        rw [ih h']

lemma slice_one {lines : List Str} {j : Nat} (h : j < lines.length) :
    (lines.drop j).take 1 = [lines.getD j []] := by
  rw [List.drop_eq_getElem_cons h, List.take_succ_cons, List.take_zero,
    List.getD_eq_getElem?_getD, List.getElem?_eq_getElem h]
  rfl

lemma if_pre_append {c : Prop} [Decidable c] (a b : Str) :
    (if c then a ++ b else b) = (if c then a else []) ++ b := by
  split <;> simp

lemma if_post_append {c : Prop} [Decidable c] (a b : Str) :
    (if c then b ++ a else b) = b ++ (if c then a else []) := by
  split <;> simp

lemma term_context_short_eq {lines : List Str} {tl : Str} {i ml : Nat}
    (hshort : (lines.getD i []).length ≤ 300) :
    term_context lines ml tl i = specShortContext lines ml i := by
  simp only [term_context, specShortContext, specShortStart, specShortEnd,
    specShortStart0, pySliceN]
  rw [if_neg (by omega)]
  have hlen : ((lines.drop (i - 1)).take ml).length =
      min lines.length ((i - 1) + ml) - (i - 1) := by
    simp [List.length_take, List.length_drop]
    omega
  rw [hlen]
  by_cases hc : min lines.length ((i - 1) + ml) - (i - 1) < ml ∧ 0 < i - 1
  · rw [if_pos hc, if_post_append, if_pre_append, List.append_assoc]
  · rw [if_neg hc, if_post_append, if_pre_append, List.append_assoc]

lemma term_context_long_eq {lines : List Str} {tl : Str} {i p : Nat} {ml : Nat}
    (hlong : 300 < (lines.getD i []).length)
    (hpos : strFindN (pyLower (lines.getD i [])) tl = some p)
    (hi : i < lines.length) :
    term_context lines ml tl i = specLongContext lines tl i := by
  have hbefore : pySliceN lines (i - 1) i =
      (if i = 0 then [] else [lines.getD (i - 1) []]) := by
    cases i with
    | zero => simp [pySliceN]
    | succ j =>
      rw [if_neg (Nat.succ_ne_zero j)]
      unfold pySliceN
      have h11 : j + 1 - j = 1 := by omega
      simp only [Nat.add_sub_cancel, h11]
      exact slice_one (by omega)
  have hafter : pySliceN lines (i + 1) (min lines.length (i + 3)) =
      (lines.drop (i + 1)).take 2 := by
    unfold pySliceN
    apply take_eq_take'
    simp [List.length_drop]
    omega
  simp only [term_context, specLongContext]
  rw [if_pos hlong]
  have h1 : strFind (pyLower (lines.getD i [])) tl = (p : Int) := by
    unfold strFind
    rw [hpos]
  rw [h1, hpos, hbefore, hafter, if_post_append, if_pre_append]
  have hstart : (max 0 ((p : Int) - 150)).toNat = p - 150 := by omega
  have hend : (min ((lines.getD i []).length : Int) ((p : Int) + 150)).toNat =
      min (lines.getD i []).length (p + 150) := by omega
  have hcond1 : ((0 : Int) < max 0 ((p : Int) - 150)) = (0 < p - 150) := by
    apply propext
    omega
  have hcond2 : (min ((lines.getD i []).length : Int) ((p : Int) + 150) <
      ((lines.getD i []).length : Int)) =
      (min (lines.getD i []).length (p + 150) < (lines.getD i []).length) := by
    apply propext
    omega
  simp only [pySliceC, hstart, hend, hcond1, hcond2, Option.getD_some,
    List.append_assoc]

lemma firstHit_spec {lines terms : List Str} {tl : Str} {i : Nat}
    (h : firstHit lines terms = some (tl, i)) :
    i < lines.length ∧ containsSub (pyLower (lines.getD i [])) tl = true := by
  unfold firstHit at h
  have hmem : (tl, i) ∈ terms.filterMap (fun term =>
      (first_line_idx lines (pyStripChar '"' (pyLower term))).map
        (fun j => (pyStripChar '"' (pyLower term), j))) := by
    cases he : terms.filterMap (fun term =>
        (first_line_idx lines (pyStripChar '"' (pyLower term))).map
          (fun j => (pyStripChar '"' (pyLower term), j))) with
    | nil => rw [he] at h; cases h
    | cons x rest =>
      rw [he] at h
      cases h
      exact List.mem_cons_self _ _
  obtain ⟨term, _, hmap⟩ := List.mem_filterMap.mp hmem
  obtain ⟨j, hj, hpair⟩ := Option.map_eq_some'.mp hmap
  rw [Prod.ext_iff] at hpair
  obtain ⟨h1, h2⟩ := hpair
  simp only at h1 h2
  subst h1
  subst h2
  exact first_line_idx_spec hj

lemma tl_infix_pyLower_focus {line tl : Str} {p : Nat}
    (hpos : strFindN (pyLower line) tl = some p) (htl : tl.length ≤ 150) :
    tl <:+: pyLower ((line.drop (p - 150)).take
      (min line.length (p + 150) - (p - 150))) := by
  obtain ⟨a, b, hab, halen⟩ := strFindN_some hpos
  rw [List.append_assoc] at hab
  have hlinelen : line.length = a.length + (tl.length + b.length) := by
    have : (pyLower line).length = line.length := by simp [pyLower]
    rw [hab] at this
    simp at this
    omega
  have hmap : pyLower ((line.drop (p - 150)).take
      (min line.length (p + 150) - (p - 150))) =
      ((pyLower line).drop (p - 150)).take (min line.length (p + 150) - (p - 150)) := by
    unfold pyLower
    rw [List.map_take, List.map_drop]
  rw [hmap, hab]
  rw [List.drop_append_of_le_length (by omega)]
  rw [List.take_append_eq_append_take]
  rw [List.take_of_length_le (by simp [List.length_drop]; omega)]
  rw [List.take_append_eq_append_take]
  rw [List.take_of_length_le (by simp [List.length_drop]; omega)]
  exact ⟨a.drop (p - 150), _, by rw [List.append_assoc]⟩

/-!  Structure of the result assembler. -/

lemma has_term_nil (text : Str) : has_term [] text = false := rfl

lemma format_rows_nil_terms : ∀ (rows : List Row) (seen : List Str),
    format_rows [] rows seen = [] := by
  intro rows
  induction rows with
  | nil => intro seen; rfl
  | cons row rest ih =>
    intro seen
    unfold format_rows
    by_cases hseen : pyOr row.metadata_filename (chars "Unknown") ∈ seen
    · rw [if_pos hseen]; exact ih seen
    · rw [if_neg hseen, if_pos (by simp [has_term_nil])]
      exact ih seen

lemma format_rows_not_seen {terms : List Str} :
    ∀ {rows : List Row} {seen : List Str} {fr : FormattedResult},
      fr ∈ format_rows terms rows seen → fr.filename ∉ seen := by
  intro rows
  induction rows with
  | nil => intro seen fr h; cases h
  | cons row rest ih =>
    intro seen fr h
    unfold format_rows at h
    by_cases hseen : pyOr row.metadata_filename (chars "Unknown") ∈ seen
    · rw [if_pos hseen] at h; exact ih h
    · rw [if_neg hseen] at h
      by_cases hterm : (!has_term terms row.text) = true
      · rw [if_pos hterm] at h; exact ih h
      · rw [if_neg hterm] at h
        rcases List.mem_cons.mp h with rfl | h'
        · exact hseen
        · have := ih h'
          intro hmem
          exact this (List.mem_cons_of_mem _ hmem)

lemma format_rows_nodup {terms : List Str} :
    ∀ (rows : List Row) (seen : List Str),
      ((format_rows terms rows seen).map (fun r => r.filename)).Nodup := by
  intro rows
  induction rows with
  | nil => intro seen; simp [format_rows]
  | cons row rest ih =>
    intro seen
    unfold format_rows
    by_cases hseen : pyOr row.metadata_filename (chars "Unknown") ∈ seen
    · rw [if_pos hseen]; exact ih seen
    · rw [if_neg hseen]
      by_cases hterm : (!has_term terms row.text) = true
      · rw [if_pos hterm]; exact ih seen
      · rw [if_neg hterm]
        rw [List.map_cons, List.nodup_cons]
        refine ⟨?_, ih _⟩
        intro hmem
        obtain ⟨fr, hfr, heq⟩ := List.mem_map.mp hmem
        have := format_rows_not_seen hfr
        rw [heq] at this
        exact this (List.mem_cons_self _ _)

lemma format_rows_skip {terms : List Str} {row : Row} {rows : List Row} {seen : List Str}
    (h : pyOr row.metadata_filename (chars "Unknown") ∈ seen) :
    format_rows terms (row :: rows) seen = format_rows terms rows seen := by
  rw [show format_rows terms (row :: rows) seen =
      (if pyOr row.metadata_filename (chars "Unknown") ∈ seen then
        format_rows terms rows seen
      else if (!has_term terms row.text) = true then format_rows terms rows seen
      else mk_result terms row :: format_rows terms rows
        (pyOr row.metadata_filename (chars "Unknown") :: seen)) from rfl]
  rw [if_pos h]

lemma format_rows_mem {terms : List Str} :
    ∀ {rows : List Row} {seen : List Str} {fr : FormattedResult},
      fr ∈ format_rows terms rows seen →
        ∃ row ∈ rows, fr = mk_result terms row ∧ has_term terms row.text = true := by
  intro rows
  induction rows with
  | nil => intro seen fr h; cases h
  | cons row rest ih =>
    intro seen fr h
    unfold format_rows at h
    by_cases hseen : pyOr row.metadata_filename (chars "Unknown") ∈ seen
    · rw [if_pos hseen] at h
      obtain ⟨r, hr, he⟩ := ih h
      exact ⟨r, List.mem_cons_of_mem _ hr, he⟩
    · rw [if_neg hseen] at h
      by_cases hterm : (!has_term terms row.text) = true
      · rw [if_pos hterm] at h
        obtain ⟨r, hr, he⟩ := ih h
        exact ⟨r, List.mem_cons_of_mem _ hr, he⟩
      · rw [if_neg hterm] at h
        rcases List.mem_cons.mp h with rfl | h'
        · exact ⟨row, List.mem_cons_self _ _, rfl, by simpa using hterm⟩
        · obtain ⟨r, hr, he⟩ := ih h'
          exact ⟨r, List.mem_cons_of_mem _ hr, he⟩

lemma search_documents_shape (idx : Index) (q : Str) (limit offset : Int) :
    ((search_documents idx q limit offset).error = none ∧
      (search_documents idx q limit offset).query = q ∧
      (search_documents idx q limit offset).limit = some limit ∧
      (search_documents idx q limit offset).offset = some offset) ∨
    (∃ e, (search_documents idx q limit offset).error = some e ∧
      (search_documents idx q limit offset).results = [] ∧
      (search_documents idx q limit offset).total = 0 ∧
      (search_documents idx q limit offset).query = q ∧
      (search_documents idx q limit offset).limit = none ∧
      (search_documents idx q limit offset).offset = none) := by
  unfold search_documents
  cases hq : (if idx.hasFts then idx.ftsQuery (parse_boolean_query q) limit offset
      else idx.likeQuery ('%' :: (q ++ ['%'])) limit offset) with
  | error e => simp [hq, Except.bind]
  | ok rows =>
    cases hc : (if idx.hasFts then idx.ftsCount (parse_boolean_query q)
        else idx.likeCount ('%' :: (q ++ ['%']))) with
    | error e => simp [hq, hc, Except.bind]
    | ok total => simp [hq, hc, Except.bind]

lemma search_documents_results {idx : Index} {q : Str} {limit offset : Int}
    {fr : FormattedResult}
    (h : fr ∈ (search_documents idx q limit offset).results) :
    ∃ rows, (if idx.hasFts then idx.ftsQuery (parse_boolean_query q) limit offset
        else idx.likeQuery ('%' :: (q ++ ['%'])) limit offset) = Except.ok rows ∧
      fr ∈ format_rows (extract_search_terms q) rows [] := by
  unfold search_documents at h
  cases hq : (if idx.hasFts then idx.ftsQuery (parse_boolean_query q) limit offset
      else idx.likeQuery ('%' :: (q ++ ['%'])) limit offset) with
  | error e => rw [hq] at h; simp [Except.bind] at h
  | ok rows =>
    rw [hq] at h
    cases hc : (if idx.hasFts then idx.ftsCount (parse_boolean_query q)
        else idx.likeCount ('%' :: (q ++ ['%']))) with
    | error e => rw [hc] at h; simp [Except.bind] at h
    | ok total =>
      rw [hc] at h
      simp only [Except.bind] at h
      exact ⟨rows, rfl, by simpa using h⟩

lemma search_documents_results_eq (idx : Index) (q : Str) (limit offset : Int) :
    (search_documents idx q limit offset).results = [] ∨
    ∃ rows, (search_documents idx q limit offset).results =
      format_rows (extract_search_terms q) rows [] := by
  unfold search_documents
  cases hq : (if idx.hasFts then idx.ftsQuery (parse_boolean_query q) limit offset
      else idx.likeQuery ('%' :: (q ++ ['%'])) limit offset) with
  | error e => simp [Except.bind]
  | ok rows =>
    cases hc : (if idx.hasFts then idx.ftsCount (parse_boolean_query q)
        else idx.likeCount ('%' :: (q ++ ['%']))) with
    | error e => simp [Except.bind]
    | ok total =>
      right
      exact ⟨rows, by simp [Except.bind]⟩

/-!  The claims. -/

/-- Claim C3: within one response of the assembler no two emitted snippet
results share a filename — the emitted filename list is duplicate-free — and
a hit whose filename key is already among the emitted (seen) filenames is
skipped outright. -/
theorem c3_dedup_by_filename :
    (∀ (idx : Index) (q : Str) (limit offset : Int),
      (((search_documents idx q limit offset).results).map (fun r => r.filename)).Nodup) ∧
    (∀ (terms : List Str) (row : Row) (rows : List Row) (seen : List Str),
      pyOr row.metadata_filename (chars "Unknown") ∈ seen →
        format_rows terms (row :: rows) seen = format_rows terms rows seen) := by
  constructor
  · intro idx q limit offset
    rcases search_documents_results_eq idx q limit offset with h | ⟨rows, h⟩
    · simp [h]
    · rw [h]
      exact format_rows_nodup rows []
  · intro terms row rows seen h
    exact format_rows_skip h

/-- Witness for C3 at concrete inputs: the single-hit index yields a
duplicate-free filename list, and a row whose filename key (`Unknown`) is
already seen is skipped. -/
theorem c3_dedup_witness :
    (((search_documents idxOne (chars "fbi") 50 0).results).map (fun r => r.filename)).Nodup ∧
    format_rows [] [rowAnon] [chars "Unknown"] = format_rows [] [] [chars "Unknown"] :=
  ⟨c3_dedup_by_filename.1 idxOne (chars "fbi") 50 0,
   c3_dedup_by_filename.2 [] rowAnon [] [chars "Unknown"] (by decide)⟩

/-- Claim C4: every snippet result emitted by the assembler comes from a row
of the index's answer whose raw text contains at least one extracted literal
term as a case-insensitive substring (terms are lowercased and quote-stripped
exactly as the source does); rows with no term are skipped, never emitted. -/
theorem c4_results_contain_term (idx : Index) (q : Str) (limit offset : Int)
    (fr : FormattedResult)
    (h : fr ∈ (search_documents idx q limit offset).results) :
    ∃ rows row,
      (if idx.hasFts then idx.ftsQuery (parse_boolean_query q) limit offset
        else idx.likeQuery ('%' :: (q ++ ['%'])) limit offset) = Except.ok rows ∧
      row ∈ rows ∧ fr = mk_result (extract_search_terms q) row ∧
      ∃ t ∈ extract_search_terms q,
        pyStripChar '"' (pyLower t) <:+: pyLower row.text := by
  obtain ⟨rows, hq, hfr⟩ := search_documents_results h
  obtain ⟨row, hrow, heq, hterm⟩ := format_rows_mem hfr
  refine ⟨rows, row, hq, hrow, heq, ?_⟩
  unfold has_term at hterm
  obtain ⟨t, ht, hsub⟩ := List.any_eq_true.mp hterm
  exact ⟨t, ht, containsSub_iff.mp hsub⟩

/-- Witness for C4: on the single-hit index and query `fbi`, the emitted
result indeed stems from `rowFbi`, whose text contains the term. -/
theorem c4_results_contain_term_witness :
    ∃ rows row,
      (if idxOne.hasFts then idxOne.ftsQuery (parse_boolean_query (chars "fbi")) 50 0
        else idxOne.likeQuery ('%' :: (chars "fbi" ++ ['%'])) 50 0) = Except.ok rows ∧
      row ∈ rows ∧ frFbi = mk_result (extract_search_terms (chars "fbi")) row ∧
      ∃ t ∈ extract_search_terms (chars "fbi"),
        pyStripChar '"' (pyLower t) <:+: pyLower row.text :=
  c4_results_contain_term idxOne (chars "fbi") 50 0 frFbi (by decide)

/-- Claim C7: on an empty term list, `extract_context` returns the first
`max_lines` newline-delimited lines joined by newline, with the ellipsis
marker appended exactly when the text has more than `max_lines` lines,
followed by the boilerplate-prefix strip. -/
theorem c7_empty_terms (text : Str) (max_lines : Nat) :
    extract_context text [] max_lines =
      process_marker (joinNL ((splitNL text).take max_lines) ++
        (if max_lines < (splitNL text).length then dots else [])) := by
  unfold extract_context
  rw [if_pos (Or.inr rfl)]
  by_cases h : max_lines < (splitNL text).length
  · simp [h]
  · simp [h]

/-- Claim C8: the assembler never raises — for every index behaviour it
returns either the success payload (no error, echoing query, limit and
offset) or the error payload, and the error payload always carries an empty
result list and a zero total. -/
theorem c8_error_payload (idx : Index) (q : Str) (limit offset : Int) :
    ((search_documents idx q limit offset).error = none ∧
      (search_documents idx q limit offset).query = q ∧
      (search_documents idx q limit offset).limit = some limit ∧
      (search_documents idx q limit offset).offset = some offset) ∨
    (∃ e, (search_documents idx q limit offset).error = some e ∧
      (search_documents idx q limit offset).results = [] ∧
      (search_documents idx q limit offset).total = 0 ∧
      (search_documents idx q limit offset).query = q ∧
      (search_documents idx q limit offset).limit = none ∧
      (search_documents idx q limit offset).offset = none) :=
  search_documents_shape idx q limit offset

/-- Claim C9: a request whose query trims to fewer than two characters
(including an empty or missing `q`) is answered by a validation-error payload
with empty results and zero total, and the route's outcome does not depend on
the index — no search call is made. -/
theorem c9_short_query_validation (q : Option Str) (limitArg offsetArg : Int)
    (h : (pyStrip (q.getD [])).length < 2) :
    (∃ e, search_route q limitArg offsetArg = RouteStep.invalid e [] 0) ∧
    (∀ idx idx' : Index,
      search_api idx q limitArg offsetArg = search_api idx' q limitArg offsetArg) := by
  have hroute : ∃ e, search_route q limitArg offsetArg = RouteStep.invalid e [] 0 := by
    simp only [search_route]
    by_cases he : pyStrip (q.getD []) = []
    · exact ⟨chars "Query parameter \"q\" is required", by rw [if_pos he]⟩
    · exact ⟨chars "Query must be at least 2 characters", by rw [if_neg he, if_pos h]⟩
  refine ⟨hroute, ?_⟩
  intro idx idx'
  obtain ⟨e, he⟩ := hroute
  unfold search_api
  rw [he]

/-- Witness for C9: the query `" a "` trims to one character and is rejected
identically for any two indices. -/
theorem c9_short_query_validation_witness :
    (∃ e, search_route (some (chars " a ")) 50 0 = RouteStep.invalid e [] 0) ∧
    (∀ idx idx' : Index,
      search_api idx (some (chars " a ")) 50 0 = search_api idx' (some (chars " a ")) 50 0) :=
  c9_short_query_validation (some (chars " a ")) 50 0 (by decide)

/-- Claim C10: a query whose quote-aware tokens are all boolean operator
words yields an empty extracted term list, so the term filter rejects every
hit: every assembler response for it has an empty result list, while an index
can still report a positive total for the same query. -/
theorem c10_operator_only_query (q : Str)
    (h : ∀ t ∈ pyTokens 1 q, pyUpper t ∈ opWordsU) :
    extract_search_terms q = [] ∧
    (∀ (idx : Index) (limit offset : Int),
      (search_documents idx q limit offset).results = []) ∧
    (∃ (idx : Index) (limit offset : Int),
      (search_documents idx q limit offset).results = [] ∧
      0 < (search_documents idx q limit offset).total) := by
  have hterms : extract_search_terms q = [] := by
    unfold extract_search_terms
    rw [List.filter_eq_nil_iff.mpr (by
      intro t ht
      simp [h t ht])]
    rfl
  have hres : ∀ (idx : Index) (limit offset : Int),
      (search_documents idx q limit offset).results = [] := by
    intro idx limit offset
    rcases search_documents_results_eq idx q limit offset with h' | ⟨rows, h'⟩
    · exact h'
    · rw [h', hterms]
      exact format_rows_nil_terms rows []
  refine ⟨hterms, hres, idxOne, 50, 0, hres idxOne 50 0, ?_⟩
  show 0 < (search_documents idxOne q 50 0).total
  unfold search_documents idxOne
  simp [Except.bind]

/-- Witness for C10: the query `AND or Not` consists only of operator words;
its term list is empty, its results are empty for every index, and the
single-hit index still reports total 7. -/
theorem c10_operator_only_query_witness :
    extract_search_terms (chars "AND or Not") = [] ∧
    (∀ (idx : Index) (limit offset : Int),
      (search_documents idx (chars "AND or Not") limit offset).results = []) ∧
    (∃ (idx : Index) (limit offset : Int),
      (search_documents idx (chars "AND or Not") limit offset).results = [] ∧
      0 < (search_documents idx (chars "AND or Not") limit offset).total) :=
  c10_operator_only_query (chars "AND or Not") (by decide)

/-- Counterexample to C1 as stated.  For the raw query `x.and.y` the
quote-aware tokenizer yields the single non-operator token `x.and.y`, which
contains reserved characters, yet the match expression is `"x." AND ".y"` —
the word-boundary operator substitution split the token before escaping — and
it does not contain the token wrapped in quotes.  For the raw query `"a.b"`
the (non-operator) phrase token `"a.b"` is re-escaped to `""a.b""`, not to
the token wrapped with internal quotes doubled. -/
theorem c1_counterexample :
    (pyTokens 0 (chars "x.and.y") = [chars "x.and.y"] ∧
      (chars "x.and.y").any (fun c => reservedChars.contains c) = true ∧
      ¬ pyUpper (chars "x.and.y") ∈ opWordsU ∧
      parse_boolean_query (chars "x.and.y") = chars "\"x.\" AND \".y\"" ∧
      containsSub (parse_boolean_query (chars "x.and.y"))
        ('"' :: (specDoubleQuotes (chars "x.and.y") ++ ['"'])) = false) ∧
    (pyTokens 0 (chars "\"a.b\"") = [chars "\"a.b\""] ∧
      parse_boolean_query (chars "\"a.b\"") = chars "\"\"a.b\"\"" ∧
      containsSub (parse_boolean_query (chars "\"a.b\""))
        ('"' :: (specDoubleQuotes (chars "\"a.b\"") ++ ['"'])) = false) := by
  decide

/-- Claim C1 (amended): for every unquoted non-operator token of the
operator-normalized trimmed query (rather than of the raw query, and with
quoted phrases escaped on their inner text instead), the match expression
contains the token wrapped in double quotes with internal double quotes
doubled first when it has a reserved character, and contains the token
unchanged when it has none. -/
theorem c1_reserved_escaping (q t : Str)
    (ht : t ∈ pyTokens 0 (normalizeOps (pyStrip q)))
    (hop : ¬ pyUpper t ∈ opWordsU)
    (hq : pyQuotedTok t = false) :
    (t.any (fun c => reservedChars.contains c) = true →
      containsSub (parse_boolean_query q)
        ('"' :: (specDoubleQuotes t ++ ['"'])) = true) ∧
    (t.any (fun c => reservedChars.contains c) = false →
      containsSub (parse_boolean_query q) t = true) := by
  have hmem : process_token t ∈ (pyTokens 0 (normalizeOps (pyStrip q))).map process_token :=
    List.mem_map_of_mem _ ht
  have hinfix : process_token t <:+: parse_boolean_query q := by
    unfold parse_boolean_query
    exact mem_joinSep_infix hmem
  have hpt : process_token t = escape_fts_special_chars t := by
    unfold process_token
    rw [if_neg hop, if_neg (by simp [hq])]
  constructor
  · intro hres
    have he : escape_fts_special_chars t = '"' :: (pyReplace ['"'] ['"', '"'] t ++ ['"']) := by
      unfold escape_fts_special_chars
      rw [if_pos hres]
    rw [pyReplace_dq] at he
    apply containsSub_iff.mpr
    rw [← he, ← hpt]
    exact hinfix
  · intro hres
    have he : escape_fts_special_chars t = t := by
      unfold escape_fts_special_chars
      rw [if_neg (by simpa using hres)]
    apply containsSub_iff.mpr
    rw [← he, ← hpt]
    exact hinfix

/-- Witness for C1 (amended) at the token `(note)` of the query `(note)`:
it contains reserved characters and the match expression contains it quoted. -/
theorem c1_reserved_escaping_witness :
    ((chars "(note)").any (fun c => reservedChars.contains c) = true →
      containsSub (parse_boolean_query (chars "(note)"))
        ('"' :: (specDoubleQuotes (chars "(note)") ++ ['"'])) = true) ∧
    ((chars "(note)").any (fun c => reservedChars.contains c) = false →
      containsSub (parse_boolean_query (chars "(note)")) (chars "(note)") = true) :=
  c1_reserved_escaping (chars "(note)") (chars "(note)")
    (by decide) (by decide) (by decide)

/-- Counterexample to C2 as stated: quoted-phrase contents are not preserved
verbatim — the operator substitution rewrites them — so the phrase query
`"cats and dogs"` produces the expression `"cats  AND  dogs"`, which does not
contain the original phrase text. -/
theorem c2_counterexample :
    parse_boolean_query (chars "\"cats and dogs\"") = chars "\"cats  AND  dogs\"" ∧
    containsSub (parse_boolean_query (chars "\"cats and dogs\"")) (chars "cats and dogs")
      = false := by
  decide

/-- Claim C2 (amended): boolean keywords are normalized case-insensitively at
word boundaries across the whole query, including inside double-quoted
phrases (whose contents are therefore altered when they hold a standalone
operator word, not preserved verbatim); every token then recognized as an
operator is an uppercase `AND`/`OR`/`NOT`, is re-emitted unchanged by the
token processor, and appears in the space-joined match expression, and no
quoted token is ever recognized as an operator. -/
theorem c2_operator_recognition (q t : Str)
    (ht : t ∈ pyTokens 0 (normalizeOps (pyStrip q)))
    (hop : pyUpper t ∈ opWordsU) :
    t ∈ opWordsU ∧ process_token t = t ∧
    containsSub (parse_boolean_query q) t = true ∧
    (∀ u ∈ pyTokens 0 (normalizeOps (pyStrip q)), ['"'].isPrefixOf u = true →
      ¬ pyUpper u ∈ opWordsU) := by
  have hpt : process_token t = t := by
    unfold process_token
    rw [if_pos hop]
  refine ⟨ops_uppercase_of_normalized ht hop, hpt, ?_, ?_⟩
  · have hmem : process_token t ∈ (pyTokens 0 (normalizeOps (pyStrip q))).map process_token :=
      List.mem_map_of_mem _ ht
    have hinfix : process_token t <:+: parse_boolean_query q := by
      unfold parse_boolean_query
      exact mem_joinSep_infix hmem
    apply containsSub_iff.mpr
    rw [← hpt]
    exact hinfix
  · intro u _ hquote hopu
    obtain ⟨s, hs⟩ := List.isPrefixOf_iff_prefix.mp hquote
    have hu : pyUpper u = '"' :: pyUpper s := by
      rw [← hs]
      rfl
    rcases (by simpa [opWordsU] using hopu :
        pyUpper u = chars "AND" ∨ pyUpper u = chars "OR" ∨ pyUpper u = chars "NOT")
      with he | he | he <;> rw [hu] at he <;> simp [chars] at he

/-- Witness for C2 (amended) at the query `fbi and cia`: the normalized token
`AND` is recognized, uppercase, re-emitted, and present in the expression. -/
theorem c2_operator_recognition_witness :
    chars "AND" ∈ opWordsU ∧ process_token (chars "AND") = chars "AND" ∧
    containsSub (parse_boolean_query (chars "fbi and cia")) (chars "AND") = true ∧
    (∀ u ∈ pyTokens 0 (normalizeOps (pyStrip (chars "fbi and cia"))),
      ['"'].isPrefixOf u = true → ¬ pyUpper u ∈ opWordsU) :=
  c2_operator_recognition (chars "fbi and cia") (chars "AND") (by decide) (by decide)

/-- Claim C6: for a matched line of at most 300 characters, `extract_context`
returns, after the boilerplate strip, exactly the specification's short-line
window — up to `max_lines` lines starting one line before the match (clamped
at 0), shifted earlier to fill `max_lines` when the window is short and room
exists before its start, with `...` prepended iff the window does not start
at line 0 and appended iff it does not reach the last line — and the shift
only moves the start earlier while the window end is unchanged, so the match
line never leaves the window. -/
theorem c6_short_line_window (text : Str) (terms : List Str) (tl : Str) (i ml : Nat)
    (htext : text ≠ []) (hterms : terms ≠ [])
    (hfirst : firstHit (splitNL text) terms = some (tl, i))
    (hshort : ((splitNL text).getD i []).length ≤ 300) :
    extract_context text terms ml =
      process_marker (specShortContext (splitNL text) ml i) ∧
    specShortStart (splitNL text) ml i ≤ specShortStart0 i ∧
    specShortEnd (splitNL text) ml i =
      min (splitNL text).length (specShortStart0 i + ml) := by
  refine ⟨?_, ?_, rfl⟩
  · rw [extract_eq_firstHit htext hterms hfirst, term_context_short_eq hshort]
  · simp only [specShortStart, specShortEnd, specShortStart0]
    by_cases hc : (((splitNL text).drop (i - 1)).take ml).length < ml ∧ 0 < i - 1
    · rw [if_pos hc]
      have hlen : (((splitNL text).drop (i - 1)).take ml).length =
          min (splitNL text).length ((i - 1) + ml) - (i - 1) := by
        simp [List.length_take, List.length_drop]
        omega
      rw [hlen] at hc
      omega
    · rw [if_neg hc]

/-- Witness for C6 on a seven-line text matched at line 3: the extractor
output equals the specification window with its markers, and the shifted
start stays at or before the line preceding the match. -/
theorem c6_short_line_window_witness :
    extract_context (chars "a\nb\nc\nd\ne\nf\ng") [chars "d"] 5 =
      process_marker (specShortContext (splitNL (chars "a\nb\nc\nd\ne\nf\ng")) 5 3) ∧
    specShortStart (splitNL (chars "a\nb\nc\nd\ne\nf\ng")) 5 3 ≤ specShortStart0 3 ∧
    specShortEnd (splitNL (chars "a\nb\nc\nd\ne\nf\ng")) 5 3 =
      min (splitNL (chars "a\nb\nc\nd\ne\nf\ng")).length (specShortStart0 3 + 5) :=
  c6_short_line_window (chars "a\nb\nc\nd\ne\nf\ng") [chars "d"] (chars "d") 3 5
    (by decide) (by decide) (by decide) (by decide)

/-- Counterexample to C5 as stated.  First, the code appends at most two
lines after a long matched line, not three: on `textLong3` the extractor
output differs from the claimed construction and omits line `l3`, which the
claimed construction contains.  Second, a term longer than the 150-character
radius is truncated by the window: on `textLongTerm` the term is found in the
line but the output does not contain it.  Third, the boilerplate strip can
remove the found term: on `textMarkerLong` the term `Prefix` is found but
absent from the output. -/
theorem c5_counterexample :
    (extract_context textLong3 [chars "t"] 5 ≠
        process_marker (claimedLongContext (splitNL textLong3) (chars "t") 0) ∧
      containsSub (extract_context textLong3 [chars "t"] 5) (chars "l3") = false ∧
      containsSub (process_marker (claimedLongContext (splitNL textLong3) (chars "t") 0))
        (chars "l3") = true) ∧
    (containsSub (pyLower ((splitNL textLongTerm).getD 0 [])) (pyLower longTermA) = true ∧
      containsSub (pyLower (extract_context textLongTerm [longTermA] 5))
        (pyLower longTermA) = false) ∧
    (containsSub (pyLower ((splitNL textMarkerLong).getD 0 [])) (chars "prefix") = true ∧
      containsSub (pyLower (extract_context textMarkerLong [chars "Prefix"] 5))
        (chars "prefix") = false) := by
  decide

/-- Claim C5 (amended): for a matched line longer than 300 characters,
`extract_context` returns, after the boilerplate strip, the specification's
focused construction with up to two (not three) lines after the match line;
the context before the boilerplate strip carries a `...` marker whenever the
150-character window is clamped on either side, and contains the literal term
case-insensitively whenever the term was found and is at most 150 characters
long (the strip itself and longer terms can lose it). -/
theorem c5_long_line_focus (text : Str) (terms : List Str) (tl : Str) (i p : Nat)
    (htext : text ≠ []) (hterms : terms ≠ [])
    (hfirst : firstHit (splitNL text) terms = some (tl, i))
    (hlong : 300 < ((splitNL text).getD i []).length)
    (hpos : strFindN (pyLower ((splitNL text).getD i [])) tl = some p) :
    extract_context text terms 5 = process_marker (specLongContext (splitNL text) tl i) ∧
    (150 < p → dots <:+: specLongContext (splitNL text) tl i) ∧
    (p + 150 < ((splitNL text).getD i []).length →
      dots <:+: specLongContext (splitNL text) tl i) ∧
    (tl.length ≤ 150 → tl <:+: pyLower (specLongContext (splitNL text) tl i)) := by
  obtain ⟨hi, _⟩ := firstHit_spec hfirst
  have hspec : specLongContext (splitNL text) tl i =
      joinNL ((if i = 0 then [] else [(splitNL text).getD (i - 1) []]) ++
        [(if 0 < p - 150 then dots else []) ++
          (((splitNL text).getD i []).drop (p - 150)).take
            (min ((splitNL text).getD i []).length (p + 150) - (p - 150)) ++
          (if min ((splitNL text).getD i []).length (p + 150) <
              ((splitNL text).getD i []).length then dots else [])] ++
        ((splitNL text).drop (i + 1)).take 2) := by
    simp only [specLongContext, hpos, Option.getD_some]
  have hmemfocus :
      ((if 0 < p - 150 then dots else []) ++
        (((splitNL text).getD i []).drop (p - 150)).take
          (min ((splitNL text).getD i []).length (p + 150) - (p - 150)) ++
        (if min ((splitNL text).getD i []).length (p + 150) <
            ((splitNL text).getD i []).length then dots else [])) <:+:
      specLongContext (splitNL text) tl i := by
    rw [hspec]
    exact mem_joinSep_infix (by simp)
  refine ⟨?_, ?_, ?_, ?_⟩
  · rw [extract_eq_firstHit htext hterms hfirst, term_context_long_eq hlong hpos hi]
  · intro hgt
    refine List.IsInfix.trans ?_ hmemfocus
    rw [if_pos (by omega : 0 < p - 150)]
    rw [List.append_assoc]
    exact (List.prefix_append dots _).isInfix
  · intro hlt
    refine List.IsInfix.trans ?_ hmemfocus
    rw [if_pos (by omega : min ((splitNL text).getD i []).length (p + 150) <
        ((splitNL text).getD i []).length)]
    exact (List.suffix_append _ dots).isInfix
  · intro htl
    have h1 : tl <:+: pyLower
        ((((splitNL text).getD i []).drop (p - 150)).take
          (min ((splitNL text).getD i []).length (p + 150) - (p - 150))) :=
      tl_infix_pyLower_focus hpos htl
    have h2 : (((splitNL text).getD i []).drop (p - 150)).take
        (min ((splitNL text).getD i []).length (p + 150) - (p - 150)) <:+:
        specLongContext (splitNL text) tl i := by
      refine List.IsInfix.trans ?_ hmemfocus
      rw [List.append_assoc]
      exact List.infix_append' _ _ _
    exact h1.trans (h2.map Char.toLower)

/-- Witness for C5 (amended) on a 301-character first line matched by the
one-character term `t` at offset 0 with two following lines. -/
theorem c5_long_line_focus_witness :
    extract_context (('t' :: List.replicate 300 'x') ++ ('\n' :: chars "l1\nl2"))
        [chars "t"] 5 =
      process_marker (specLongContext
        (splitNL (('t' :: List.replicate 300 'x') ++ ('\n' :: chars "l1\nl2")))
        (chars "t") 0) ∧
    (150 < 0 → dots <:+: specLongContext
      (splitNL (('t' :: List.replicate 300 'x') ++ ('\n' :: chars "l1\nl2")))
      (chars "t") 0) ∧
    (0 + 150 < ((splitNL (('t' :: List.replicate 300 'x') ++
        ('\n' :: chars "l1\nl2"))).getD 0 []).length →
      dots <:+: specLongContext
        (splitNL (('t' :: List.replicate 300 'x') ++ ('\n' :: chars "l1\nl2")))
        (chars "t") 0) ∧
    ((chars "t").length ≤ 150 → chars "t" <:+: pyLower (specLongContext
      (splitNL (('t' :: List.replicate 300 'x') ++ ('\n' :: chars "l1\nl2")))
      (chars "t") 0)) :=
  c5_long_line_focus (('t' :: List.replicate 300 'x') ++ ('\n' :: chars "l1\nl2"))
    [chars "t"] (chars "t") 0 0
    (by decide) (by decide) (by decide) (by decide) (by decide)

end MlkSearch
